import Mathlib

/-!
Verification development for the table subsystem of the widg_sid repository:
the `TableValidator` sanitization contract, the `Table` entity model
(`src/models/table.py`), the `TableController` workflows
(`src/controllers/table_controller.py`) and the `TableManager` name cache
(`src/core/table_manager.py`).  The record store (`DBManager`) and the
validator (`TableValidator`) are not part of the provided sources; they are
modelled from the specification where noted.
-/

namespace WidgSid

/-- Text (a Python `str`) is modelled as a list of characters. -/
abbrev Str := List Char

/-- Whitespace test used by Python's `str.strip`; modelled by `Char.isWhitespace`. -/
def isWS (c : Char) : Bool := c.isWhitespace

namespace TableValidator

/-- Modelled from the spec: `TableValidator.sanitize_cell_content` (the file
`core/table_validator.py` is not among the sources).  Spec section 4.1: trims
leading and trailing whitespace, collapses all-whitespace content to the empty
string, and does not alter internal whitespace. -/
def sanitize_cell_content (s : Str) : Str :=
  ((s.dropWhile isWS).reverse.dropWhile isWS).reverse

/-- Modelled from the spec: `TableValidator.sanitize_table_data` applies
`sanitize_cell_content` element-wise, preserving the matrix shape. -/
def sanitize_table_data (m : List (List Str)) : List (List Str) :=
  m.map (fun row => row.map sanitize_cell_content)

/-- Lowercase folding used for the case-insensitive comparisons of the name
validator. -/
def lowerStr (s : Str) : Str := s.map Char.toLower

/-- Characters allowed in a table name: letters, digits, hyphen, underscore
(spec section 4.1). -/
def allowedNameChar (c : Char) : Bool :=
  c.isAlpha || c.isDigit || c == '-' || c == '_'

/-- Modelled from the spec: `TableValidator.validate_table_name`
(`core/table_validator.py` is not among the sources).  Spec section 4.1: fails
on an empty trimmed name, a name longer than 100 characters, a disallowed
character, a reserved word (case-insensitive, the store-defined list is
abstracted as the `reserved` argument), or a case-insensitive clash with
`existing` unless the name equals `exclude`. -/
def validate_table_name (reserved : List Str) (name : Str) (existing : List Str)
    (exclude : Option Str) : Bool × Str :=
  let trimmed := sanitize_cell_content name
  if trimmed = [] then (false, "empty name".toList)
  else if 100 < name.length then (false, "name too long".toList)
  else if ¬ (name.all allowedNameChar) then (false, "invalid characters".toList)
  else if reserved.any (fun r => lowerStr r = lowerStr name) then
    (false, "reserved word".toList)
  else if (existing.any (fun e => lowerStr e = lowerStr name)) ∧
      exclude ≠ some name then
    (false, "duplicate name".toList)
  else (true, [])

/-- Modelled from the spec: the filled-cell count of
`TableValidator.validate_table_data` — cells whose trimmed content is
non-empty. -/
def filledCount (m : List (List Str)) : Nat :=
  (m.map (fun row => (row.filter (fun c => sanitize_cell_content c ≠ [])).length)).sum

/-- Modelled from the spec: `TableValidator.validate_table_data`
(`core/table_validator.py` is not among the sources).  Spec section 4.1:
counts cells whose trimmed content is non-empty and fails when the count is
below `minFilled`; ragged matrices are valid at this layer. -/
def validate_table_data (m : List (List Str)) (minFilled : Nat) : Bool × Str × Nat :=
  let filled := filledCount m
  if filled < minFilled then (false, "not enough filled cells".toList, filled)
  else (true, [], filled)

end TableValidator

/-- Entity model of `src/models/table.py`: identity fields of a table.  The
`id` is absent (`none`) before creation; timestamps are opaque and modelled as
naturals. -/
structure Table where
  id : Option Nat
  name : Str
  description : Str
  created_at : Nat
  updated_at : Nat
deriving Repr, DecidableEq

/-- Embedding of `Table.__eq__` (`src/models/table.py` lines 56-59): two
`Table` values compare equal exactly when their `id` fields are equal; no
other field is consulted and absence of both ids is not excluded. -/
def tableEq (a b : Table) : Bool := a.id == b.id

/-- Flat cell record (spec section 3): one record per filled cell, carrying
the column label, sanitized content, table-membership name, matrix position,
row-grouping key, intra-row order, sensitivity flag, tags and the owning
category. -/
structure CellRecord where
  name_table : Str
  row : Nat
  col : Nat
  label : Str
  content : Str
  list_group : Str
  orden_lista : Nat
  is_sensitive : Bool
  tags : List Str
  category_id : Nat
deriving Repr, DecidableEq

/-- Modelled from the spec: the flat item store behind `DBManager`
(`database/db_manager.py` is not among the sources).  It holds the table
identity names (section 6, `getAllTables`) and the flat cell records. -/
structure ItemStore where
  tables : List Str
  records : List CellRecord
deriving Repr, DecidableEq

/-- PyQt signals emitted by `TableController` (fire-and-forget
notifications). -/
inductive Signal where
  | table_created (name : Str) (itemsCreated : Nat) (categoryId : Nat)
  | table_updated (name : Str) (categoryId : Nat)
  | table_deleted (name : Str) (categoryId : Nat)
  | error_occurred (msg : Str)
deriving Repr, DecidableEq

/-- Builds one cell record as described in `create_table`'s docstring
(`table_controller.py` lines 122-132) and spec section 3. -/
def mkCellRecord (catId : Nat) (tname : Str) (colNames : List Str)
    (tags : List Str) (sens : List Nat) (r c : Nat) (content : Str) : CellRecord :=
  { name_table := tname, row := r, col := c,
    label := colNames.getD c [],
    content := content,
    list_group := tname ++ "_row_".toList ++ Nat.toDigits 10 r,
    orden_lista := c,
    is_sensitive := sens.contains c,
    tags := tags ++ [tname],
    category_id := catId }

/-- Records of one matrix row starting at column index `c`; cells with empty
(already sanitized) content produce no record. -/
def rowRecords (catId : Nat) (tname : Str) (colNames : List Str) (tags : List Str)
    (sens : List Nat) (r : Nat) : Nat → List Str → List CellRecord
  | _, [] => []
  | c, cell :: rest =>
      if cell = [] then rowRecords catId tname colNames tags sens r (c + 1) rest
      else mkCellRecord catId tname colNames tags sens r c cell ::
        rowRecords catId tname colNames tags sens r (c + 1) rest

/-- Records of a matrix starting at row index `r`. -/
def matRecords (catId : Nat) (tname : Str) (colNames : List Str) (tags : List Str)
    (sens : List Nat) : Nat → List (List Str) → List CellRecord
  | _, [] => []
  | r, row :: rest =>
      rowRecords catId tname colNames tags sens r 0 row ++
        matRecords catId tname colNames tags sens (r + 1) rest

/-- Outcome of the store's multi-insert. -/
structure AddItemsResult where
  success : Bool
  items_created : Nat
  errors : List Str
deriving Repr, DecidableEq

/-- Modelled from the spec: `DBManager.add_table_items` (section 6,
`addTableItems`, atomic): inserts one record per filled cell in a single
transaction, registers the table name, and reports the insert count. -/
def add_table_items (catId : Nat) (tname : Str) (data : List (List Str))
    (colNames : List Str) (tags : List Str) (sens : List Nat) (st : ItemStore) :
    AddItemsResult × ItemStore :=
  let recs := matRecords catId tname colNames tags sens 0 data
  ({ success := true, items_created := recs.length, errors := [] },
   { tables := st.tables ++ [tname], records := st.records ++ recs })

/-- Modelled from the spec: `DBManager.get_table_items` (section 6,
`getTableItems`) — all cell records for a table name, in store order. -/
def get_table_items (tname : Str) (st : ItemStore) : List CellRecord :=
  st.records.filter (fun rec => rec.name_table == tname)

/-- Match of a cell record against a `(name, row, col)` address. -/
def cellMatches (tname : Str) (r c : Nat) (rec : CellRecord) : Bool :=
  rec.name_table == tname && rec.row == r && rec.col == c

/-- Modelled from the spec: `DBManager.update_table_cell` (section 6,
`updateTableCell`) — point update of the record addressed by
`(name, row, col)`; reports `false` when no such record exists. -/
def update_table_cell (tname : Str) (r c : Nat) (newContent : Str)
    (st : ItemStore) : Bool × ItemStore :=
  if st.records.any (cellMatches tname r c) then
    (true, { st with records := st.records.map (fun rec =>
        if cellMatches tname r c rec then { rec with content := newContent }
        else rec) })
  else (false, st)

/-- Reconstructed table structure (spec section 6, `exportTableToDict`). -/
structure ExportData where
  table_name : Str
  columns : List Str
  rows : List (List Str)
  num_rows : Nat
  num_cols : Nat
deriving Repr, DecidableEq

/-- Sorted distinct index values occurring in a list. -/
def sortedIndices (idxs : List Nat) : List Nat :=
  (List.range (idxs.foldr max 0 + 1)).filter (fun i => decide (i ∈ idxs))

/-- Content of the record at matrix position `(r, c)`, or the empty string
when no record exists there. -/
def contentAt (recs : List CellRecord) (r c : Nat) : Str :=
  match recs.find? (fun rec => rec.row == r && rec.col == c) with
  | some rec => rec.content
  | none => []

/-- Label of (the first record in) column `c`. -/
def labelAt (recs : List CellRecord) (c : Nat) : Str :=
  match recs.find? (fun rec => rec.orden_lista == c) with
  | some rec => rec.label
  | none => []

/-- Modelled from the spec: `DBManager.export_table_to_dict` (sections 4.3
and 6): absent when no records exist for the name; otherwise columns ordered
by `orden_lista`, rows grouped by row index, each row read off column by
column. -/
def export_table_to_dict (tname : Str) (st : ItemStore) : Option ExportData :=
  let recs := get_table_items tname st
  if recs = [] then none
  else
    let rowIdx := sortedIndices (recs.map (·.row))
    let colIdx := sortedIndices (recs.map (·.orden_lista))
    some { table_name := tname,
           columns := colIdx.map (labelAt recs),
           rows := rowIdx.map (fun r => colIdx.map (fun c => contentAt recs r c)),
           num_rows := rowIdx.length,
           num_cols := colIdx.length }

namespace TableController

/-- Result dictionary of `TableController.create_table`. -/
structure CreateResult where
  success : Bool
  items_created : Nat
  table_name : Str
  errors : List Str
  filled_cells : Nat
deriving Repr, DecidableEq

/-- Embedding of `TableController.create_table` (`table_controller.py` lines
112-218): validate the name against the existing table names, validate the
minimum fill count, sanitize, then delegate to the store's atomic
multi-insert; the store-defined reserved-word list of the name validator is
abstracted as `reserved`. -/
def create_table (reserved : List Str) (catId : Nat) (tname : Str)
    (data : List (List Str)) (colNames : List Str) (tags : List Str)
    (sens : List Nat) (st : ItemStore) : CreateResult × ItemStore × List Signal :=
  let nameCheck := TableValidator.validate_table_name reserved tname st.tables none
  if ¬ nameCheck.1 then
    ({ success := false, items_created := 0, table_name := tname,
       errors := [nameCheck.2], filled_cells := 0 }, st,
     [Signal.error_occurred nameCheck.2])
  else
    let dataCheck := TableValidator.validate_table_data data 1
    if ¬ dataCheck.1 then
      ({ success := false, items_created := 0, table_name := tname,
         errors := [dataCheck.2.1], filled_cells := dataCheck.2.2 }, st,
       [Signal.error_occurred dataCheck.2.1])
    else
      let sdata := TableValidator.sanitize_table_data data
      let ins := add_table_items catId tname sdata colNames tags sens st
      if ins.1.success then
        ({ success := true, items_created := ins.1.items_created,
           table_name := tname, errors := ins.1.errors,
           filled_cells := dataCheck.2.2 }, ins.2,
         [Signal.table_created tname ins.1.items_created catId])
      else
        ({ success := false, items_created := ins.1.items_created,
           table_name := tname, errors := ins.1.errors, filled_cells := 0 },
         ins.2, [Signal.error_occurred []])

/-- Result dictionary of `TableController.get_table_structure`. -/
structure StructureResult where
  success : Bool
  table_name : Str
  columns : List Str
  rows : List (List Str)
  error : Option Str
deriving Repr, DecidableEq

/-- Embedding of `TableController.get_table_structure` (`table_controller.py`
lines 220-258): export the flat records and fail with a structured not-found
outcome when the export is absent or has no rows. -/
def get_table_structure (tname : Str) (st : ItemStore) : StructureResult :=
  match export_table_to_dict tname st with
  | none =>
      { success := false, table_name := tname, columns := [], rows := [],
        error := some "Tabla no encontrada o vacía".toList }
  | some ed =>
      if ed.rows = [] then
        { success := false, table_name := tname, columns := [], rows := [],
          error := some "Tabla no encontrada o vacía".toList }
      else
        { success := true, table_name := ed.table_name, columns := ed.columns,
          rows := ed.rows, error := none }

/-- Result dictionary of `TableController.update_table`. -/
structure UpdateResult where
  success : Bool
  table_name : Str
  updates_count : Nat
  errors : List Str
  error : Option Str
deriving Repr, DecidableEq

/-- Error string recorded for a failed point update. -/
def cellErrorMsg (r c : Nat) : Str :=
  "Error updating cell ".toList ++ Nat.toDigits 10 r ++ [' '] ++ Nat.toDigits 10 c

/-- Inner loop of `update_table`: point updates of one row's cells starting
at column `c`, accumulating the success count, error list and store. -/
def updateCellsRow (tname : Str) (r : Nat) :
    Nat → List Str → Nat × List Str × ItemStore → Nat × List Str × ItemStore
  | _, [], acc => acc
  | c, cell :: rest, acc =>
      let sv := TableValidator.sanitize_cell_content cell
      let upd := update_table_cell tname r c sv acc.2.2
      let acc' := if upd.1 then (acc.1 + 1, acc.2.1, upd.2)
        else (acc.1, acc.2.1 ++ [cellErrorMsg r c], upd.2)
      updateCellsRow tname r (c + 1) rest acc'

/-- Outer loop of `update_table`: rows starting at row index `r`. -/
def updateCellsMat (tname : Str) :
    Nat → List (List Str) → Nat × List Str × ItemStore → Nat × List Str × ItemStore
  | _, [], acc => acc
  | r, row :: rest, acc =>
      updateCellsMat tname (r + 1) rest (updateCellsRow tname r 0 row acc)

/-- Embedding of `TableController.update_table` (`table_controller.py` lines
260-331): require at least one existing record, update cell-by-cell
(sanitizing each value), then emit `table_updated` when the first existing
record's `category_id` is truthy. -/
def update_table (tname : Str) (data : List (List Str)) (st : ItemStore) :
    UpdateResult × ItemStore × List Signal :=
  let existing := get_table_items tname st
  if existing = [] then
    ({ success := false, table_name := tname, updates_count := 0, errors := [],
       error := some ("Tabla no encontrada".toList) }, st,
     [Signal.error_occurred ("Tabla no encontrada".toList)])
  else
    let loop := updateCellsMat tname 0 data (0, [], st)
    let categoryId : Option Nat := existing.head?.map (·.category_id)
    let sigs := match categoryId with
      | some cid => if cid ≠ 0 then [Signal.table_updated tname cid] else []
      | none => []
    ({ success := decide (0 < loop.1), table_name := tname,
       updates_count := loop.1, errors := loop.2.1, error := none },
     loop.2.2, sigs)

end TableController

/-- Table identity record of the store (spec section 3): numeric id, name
and description (timestamps are irrelevant to the claims and omitted from the
store model). -/
structure TableRow where
  id : Nat
  name : Str
  description : Str
deriving Repr, DecidableEq

/-- Modelled from the spec: the table-identity side of `DBManager`
(`database/db_manager.py` is not among the sources).  The rows carry the
live table identities; `nextId` is the store-assigned id counter. -/
structure IdStore where
  rows : List TableRow
  nextId : Nat
deriving Repr, DecidableEq

namespace IdStore

/-- Modelled from the spec: `DBManager.get_table(id) → record | absent`. -/
def get_table (st : IdStore) (tid : Nat) : Option TableRow :=
  st.rows.find? (fun t => t.id == tid)

/-- Modelled from the spec: `DBManager.get_table_by_name(name) → record | absent`. -/
def get_table_by_name (st : IdStore) (name : Str) : Option TableRow :=
  st.rows.find? (fun t => t.name == name)

/-- Modelled from the spec: `DBManager.add_table(name, description) → id`
with a store-assigned fresh id. -/
def add_table (st : IdStore) (name desc : Str) : Nat × IdStore :=
  (st.nextId,
   { rows := st.rows ++ [⟨st.nextId, name, desc⟩], nextId := st.nextId + 1 })

/-- Modelled from the spec: `DBManager.update_table(id, name)` — rewrites the
name of the row with the given id. -/
def update_table (st : IdStore) (tid : Nat) (newName : Str) : IdStore :=
  { st with rows := st.rows.map (fun t =>
      if t.id == tid then { t with name := newName } else t) }

/-- Modelled from the spec: `DBManager.delete_table(id)` — removes the row
with the given id (cascading to items, which this store view does not hold). -/
def delete_table (st : IdStore) (tid : Nat) : IdStore :=
  { st with rows := st.rows.filter (fun t => t.id != tid) }

end IdStore

/-- Lookup in a Python-dict-like association list (`self._table_cache`). -/
def dictGet (k : Str) (d : List (Str × Nat)) : Option Nat :=
  (d.find? (fun e => e.1 == k)).map (·.2)

/-- Assignment `d[k] = v` of a Python dict: at most one binding per key. -/
def dictSet (k : Str) (v : Nat) (d : List (Str × Nat)) : List (Str × Nat) :=
  (k, v) :: d.filter (fun e => e.1 != k)

/-- Deletion `del d[k]` of a Python dict. -/
def dictDel (k : Str) (d : List (Str × Nat)) : List (Str × Nat) :=
  d.filter (fun e => e.1 != k)

/-- State owned by a `TableManager` instance: the name→id cache and the
backing identity store; `deleteCalls` is a ghost trace of the ids for which a
store delete was issued. -/
structure MState where
  cache : List (Str × Nat)
  store : IdStore
  deleteCalls : List Nat
deriving Repr, DecidableEq

namespace TableManager

/-- Database part of `get_or_create_table` (`table_manager.py` lines 45-56):
look the name up in the store, and only on a store miss create a new table;
either way cache the resulting id under the name. -/
def getOrCreateDb (name desc : Str) (st : MState) : Nat × MState :=
  match st.store.get_table_by_name name with
  | some t => (t.id, { st with cache := dictSet name t.id st.cache })
  | none =>
      let res := st.store.add_table name desc
      (res.1, { st with cache := dictSet name res.1 st.cache, store := res.2 })

/-- Embedding of `TableManager.get_or_create_table` (`table_manager.py` lines
24-56): a cache hit is trusted only after verifying the cached id still
resolves; a stale entry is removed before falling back to the store. -/
def get_or_create_table (name desc : Str) (st : MState) : Nat × MState :=
  match dictGet name st.cache with
  | some tid =>
      match st.store.get_table tid with
      | some _ => (tid, st)
      | none => getOrCreateDb name desc { st with cache := dictDel name st.cache }
  | none => getOrCreateDb name desc st

/-- Embedding of `TableManager.rename_table` (`table_manager.py` lines
95-128).  The `raises` flag models the store update raising, which the
method catches and converts into a `false` return. -/
def rename_table (tid : Nat) (newName : Str) (raises : Bool) (st : MState) :
    Bool × MState :=
  match st.store.get_table tid with
  | none => (false, st)
  | some t =>
      if raises then (false, st)
      else
        (true, { st with
                 store := st.store.update_table tid newName
                 cache := dictSet newName tid (dictDel t.name st.cache) })

/-- Embedding of `TableManager.delete_table` (`table_manager.py` lines
130-155): the cache entry for the resolved name is removed before the store
delete is issued; the store delete is issued even when the id does not
resolve, and only a raising store call (the `raises` flag) yields `false`. -/
def delete_table (tid : Nat) (raises : Bool) (st : MState) : Bool × MState :=
  let cache1 := match st.store.get_table tid with
    | some t => dictDel t.name st.cache
    | none => st.cache
  let st1 := { st with cache := cache1, deleteCalls := st.deleteCalls ++ [tid] }
  if raises then (false, st1)
  else (true, { st1 with store := st1.store.delete_table tid })

/-- Embedding of `TableManager.invalidate_table` (`table_manager.py` lines
189-205): evicts every cache entry bound to the id. -/
def invalidate_table (tid : Nat) (st : MState) : MState :=
  { st with cache := st.cache.filter (fun e => e.2 != tid) }

/-- Embedding of `TableManager.clear_cache` (`table_manager.py` lines
184-187). -/
def clear_cache (st : MState) : MState :=
  { st with cache := [] }

end TableManager

/-- One `TableManager` call, for reasoning about arbitrary operation
sequences. -/
inductive MOp where
  | getOrCreate (name desc : Str)
  | rename (tid : Nat) (newName : Str) (raises : Bool)
  | delete (tid : Nat) (raises : Bool)
  | invalidate (tid : Nat)
  | clear
deriving Repr, DecidableEq

/-- Effect of one `TableManager` call on the manager state. -/
def stepOp (op : MOp) (st : MState) : MState :=
  match op with
  | .getOrCreate n d => (TableManager.get_or_create_table n d st).2
  | .rename t n r => (TableManager.rename_table t n r st).2
  | .delete t r => (TableManager.delete_table t r st).2
  | .invalidate t => TableManager.invalidate_table t st
  | .clear => TableManager.clear_cache st

/-- Effect of a sequence of `TableManager` calls. -/
def runOps (ops : List MOp) (st : MState) : MState :=
  ops.foldl (fun s op => stepOp op s) st

/-- Distinctness of the keys of a dict-like association list. -/
def keysNodup (d : List (Str × Nat)) : Prop := (d.map Prod.fst).Nodup

/-- Well-formedness of the identity store: distinct ids, all below the id
counter. -/
def storeOk (s : IdStore) : Prop :=
  (s.rows.map (·.id)).Nodup ∧ ∀ t ∈ s.rows, t.id < s.nextId

/-- Coherence of the name cache: keys are distinct and every cached binding
resolves in the store to a live table carrying exactly the cached name. -/
def cacheOk (st : MState) : Prop :=
  keysNodup st.cache ∧
  ∀ e ∈ st.cache, ∃ t : TableRow, st.store.get_table e.2 = some t ∧ t.name = e.1

/-- Combined well-formedness of a manager state. -/
def Inv (st : MState) : Prop := storeOk st.store ∧ cacheOk st

section SanitizeLemmas

/-- Dropping with the same predicate twice drops nothing new. -/
theorem dropWhile_dropWhile_self (p : Char → Bool) (l : Str) :
    (l.dropWhile p).dropWhile p = l.dropWhile p := by
  induction l with
  | nil => rfl
  | cons x xs ih =>
    rw [List.dropWhile_cons]
    by_cases h : p x
    · simpa [h] using ih
    · simp [List.dropWhile_cons, h]

/-- Heads surviving a `dropWhile` falsify the predicate. -/
theorem head?_dropWhile_false (p : Char → Bool) (l : Str) (x : Char)
    (h : (l.dropWhile p).head? = some x) : p x = false := by
  induction l with
  | nil => simp [List.dropWhile] at h
  | cons y ys ih =>
    rw [List.dropWhile_cons] at h
    by_cases hy : p y
    · rw [if_pos hy] at h
      exact ih h
    · rw [if_neg hy] at h
      simp only [List.head?_cons, Option.some.injEq] at h
      subst h
      exact Bool.of_not_eq_true hy

/-- Lists whose head falsifies the predicate are fixed by `dropWhile`. -/
theorem dropWhile_eq_self_of_head (p : Char → Bool) (l : Str)
    (h : ∀ x, l.head? = some x → p x = false) : l.dropWhile p = l := by
  cases l with
  | nil => rfl
  | cons x xs =>
    have hx : p x = false := h x rfl
    simp [List.dropWhile_cons, hx]

/-- Nonempty `dropWhile` results keep the last element of the input. -/
theorem getLast?_dropWhile (p : Char → Bool) (l : Str)
    (h : l.dropWhile p ≠ []) : (l.dropWhile p).getLast? = l.getLast? := by
  obtain ⟨pre, hpre⟩ := List.dropWhile_suffix (l := l) p
  conv_rhs => rw [← hpre]
  exact (List.getLast?_append_of_ne_nil pre h).symm

end SanitizeLemmas

section DictStoreLemmas

/-- Filtering by a weaker predicate does not change the first match. -/
theorem find?_filter_of_imp {α : Type} (p q : α → Bool) (l : List α)
    (h : ∀ e, p e = true → q e = true) : (l.filter q).find? p = l.find? p := by
  induction l with
  | nil => rfl
  | cons x xs ih =>
    by_cases hq : q x = true
    · rw [List.filter_cons_of_pos hq]
      by_cases hp : p x = true
      · rw [List.find?_cons_of_pos _ hp, List.find?_cons_of_pos _ hp]
      · rw [List.find?_cons_of_neg _ (by simpa using hp),
          List.find?_cons_of_neg _ (by simpa using hp), ih]
    · have hp : ¬ p x = true := fun hpx => hq (h x hpx)
      rw [List.filter_cons_of_neg (by simpa using hq),
        List.find?_cons_of_neg _ (by simpa using hp), ih]

/-- Reading back the key just assigned in a dict. -/
theorem dictGet_set_self (k : Str) (v : Nat) (d : List (Str × Nat)) :
    dictGet k (dictSet k v d) = some v := by
  simp [dictGet, dictSet, List.find?_cons_of_pos]

/-- Assigning one key leaves the other keys' lookups unchanged. -/
theorem dictGet_set_ne (k k' : Str) (v : Nat) (d : List (Str × Nat))
    (h : k' ≠ k) : dictGet k' (dictSet k v d) = dictGet k' d := by
  unfold dictGet dictSet
  rw [List.find?_cons_of_neg _ (by simpa using fun he => h he.symm),
    find?_filter_of_imp _ _ _ (fun e he => by
      simp only [beq_iff_eq] at he
      simpa [he] using h)]

/-- Reading a deleted key yields nothing. -/
theorem dictGet_del_self (k : Str) (d : List (Str × Nat)) :
    dictGet k (dictDel k d) = none := by
  unfold dictGet dictDel
  have hf : List.find? (fun e => e.1 == k) (d.filter (fun e => e.1 != k)) = none := by
    rw [List.find?_eq_none]
    intro e he
    have := (List.mem_filter.mp he).2
    simp only [bne_iff_ne, ne_eq] at this
    simpa using this
  rw [hf]
  rfl

/-- Deleting one key leaves the other keys' lookups unchanged. -/
theorem dictGet_del_ne (k k' : Str) (d : List (Str × Nat)) (h : k' ≠ k) :
    dictGet k' (dictDel k d) = dictGet k' d := by
  unfold dictGet dictDel
  rw [find?_filter_of_imp _ _ _ (fun e he => by
    simp only [beq_iff_eq] at he
    simpa [he] using h)]

/-- Successful dict lookups come from a binding in the list. -/
theorem dictGet_mem (k : Str) (v : Nat) (d : List (Str × Nat))
    (h : dictGet k d = some v) : (k, v) ∈ d := by
  unfold dictGet at h
  rw [Option.map_eq_some'] at h
  obtain ⟨e, he, hv⟩ := h
  have hmem := List.mem_of_find?_eq_some he
  have hk := List.find?_some he
  simp only [beq_iff_eq] at hk
  cases e
  subst hk hv
  exact hmem

/-- Membership after a dict assignment. -/
theorem mem_dictSet_iff (e : Str × Nat) (k : Str) (v : Nat)
    (d : List (Str × Nat)) :
    e ∈ dictSet k v d ↔ e = (k, v) ∨ (e ∈ d ∧ e.1 ≠ k) := by
  simp [dictSet, List.mem_filter, bne_iff_ne]

/-- Membership after a dict deletion. -/
theorem mem_dictDel_iff (e : Str × Nat) (k : Str) (d : List (Str × Nat)) :
    e ∈ dictDel k d ↔ e ∈ d ∧ e.1 ≠ k := by
  simp [dictDel, List.mem_filter, bne_iff_ne]

/-- Key distinctness survives filtering. -/
theorem keysNodup_filter (q : Str × Nat → Bool) (d : List (Str × Nat))
    (h : keysNodup d) : keysNodup (d.filter q) :=
  ((List.filter_sublist d).map Prod.fst).nodup h

/-- Key distinctness survives a dict assignment. -/
theorem keysNodup_dictSet (k : Str) (v : Nat) (d : List (Str × Nat))
    (h : keysNodup d) : keysNodup (dictSet k v d) := by
  unfold keysNodup dictSet
  rw [List.map_cons, List.nodup_cons]
  refine ⟨?_, keysNodup_filter _ d h⟩
  intro hk
  obtain ⟨e, he, hek⟩ := List.mem_map.mp hk
  have := (List.mem_filter.mp he).2
  simp only [bne_iff_ne, ne_eq] at this
  exact this hek

/-- Entries of a dict with distinct keys are determined by their key. -/
theorem keysNodup_eq_of_mem (d : List (Str × Nat)) (h : keysNodup d)
    (e1 e2 : Str × Nat) (h1 : e1 ∈ d) (h2 : e2 ∈ d) (hk : e1.1 = e2.1) :
    e1 = e2 := by
  induction d with
  | nil => simp at h1
  | cons x xs ih =>
    rw [keysNodup, List.map_cons, List.nodup_cons] at h
    rcases List.mem_cons.mp h1 with h1 | h1 <;>
      rcases List.mem_cons.mp h2 with h2 | h2
    · rw [h1, h2]
    · exact absurd (hk ▸ List.mem_map_of_mem Prod.fst h2) (h1 ▸ h.1)
    · exact absurd (hk ▸ List.mem_map_of_mem Prod.fst h1) (h2 ▸ h.1)
    · exact ih h.2 h1 h2

/-- Resolving an id yields a row of the store with that id. -/
theorem get_table_eq_some (s : IdStore) (tid : Nat) (t : TableRow)
    (h : s.get_table tid = some t) : t ∈ s.rows ∧ t.id = tid := by
  refine ⟨List.mem_of_find?_eq_some h, ?_⟩
  have := List.find?_some h
  simpa using this

/-- Resolving a name yields a row of the store with that name. -/
theorem get_table_by_name_eq_some (s : IdStore) (name : Str) (t : TableRow)
    (h : s.get_table_by_name name = some t) : t ∈ s.rows ∧ t.name = name := by
  refine ⟨List.mem_of_find?_eq_some h, ?_⟩
  have := List.find?_some h
  simpa using this

/-- Ids of rows of the store always resolve. -/
theorem get_table_isSome_of_mem (s : IdStore) (t : TableRow)
    (h : t ∈ s.rows) : (s.get_table t.id).isSome = true := by
  rw [IdStore.get_table, List.find?_isSome]
  exact ⟨t, h, by simp⟩

/-- Resolution is unchanged by `add_table` for ids that already resolve. -/
theorem get_table_add_old (s : IdStore) (n d : Str) (tid : Nat) (t : TableRow)
    (h : s.get_table tid = some t) : (s.add_table n d).2.get_table tid = some t := by
  unfold IdStore.add_table IdStore.get_table
  rw [List.find?_append]
  unfold IdStore.get_table at h
  rw [h]
  rfl

/-- The id assigned by `add_table` resolves to the new row. -/
theorem get_table_add_new (s : IdStore) (n d : Str)
    (hok : ∀ t ∈ s.rows, t.id < s.nextId) :
    (s.add_table n d).2.get_table s.nextId = some ⟨s.nextId, n, d⟩ := by
  unfold IdStore.add_table IdStore.get_table
  rw [List.find?_append]
  have h1 : s.rows.find? (fun t => t.id == s.nextId) = none := by
    rw [List.find?_eq_none]
    intro t ht
    have := hok t ht
    simp only [beq_iff_eq]
    omega
  rw [h1]
  simp

/-- Resolution after `update_table`: the row is the old one, renamed when the
id matches. -/
theorem get_table_update (s : IdStore) (tid : Nat) (n : Str) (tid' : Nat) :
    (s.update_table tid n).get_table tid' =
      (s.get_table tid').map
        (fun t => if t.id == tid then { t with name := n } else t) := by
  unfold IdStore.update_table IdStore.get_table
  rw [List.find?_map]
  have hp : ((fun t : TableRow => t.id == tid') ∘
      (fun t => if t.id == tid then { t with name := n } else t)) =
      fun t : TableRow => t.id == tid' := by
    funext t
    by_cases h : t.id = tid <;> simp [h]
  rw [hp]

/-- Resolution after `delete_table`: the deleted id no longer resolves. -/
theorem get_table_delete_self (s : IdStore) (tid : Nat) :
    (s.delete_table tid).get_table tid = none := by
  unfold IdStore.delete_table IdStore.get_table
  rw [List.find?_eq_none]
  intro t ht
  have := (List.mem_filter.mp ht).2
  simp only [bne_iff_ne, ne_eq] at this
  simpa using this

/-- Resolution after `delete_table`: other ids are unaffected. -/
theorem get_table_delete_ne (s : IdStore) (tid tid' : Nat) (h : tid' ≠ tid) :
    (s.delete_table tid).get_table tid' = s.get_table tid' := by
  unfold IdStore.delete_table IdStore.get_table
  exact find?_filter_of_imp _ _ _ (fun t ht => by
    simp only [beq_iff_eq] at ht
    simpa [ht] using h)

/-- Store well-formedness is preserved by `add_table`. -/
theorem storeOk_add (s : IdStore) (n d : Str) (h : storeOk s) :
    storeOk (s.add_table n d).2 := by
  obtain ⟨hnd, hlt⟩ := h
  constructor
  · unfold IdStore.add_table
    rw [List.map_append, List.nodup_append]
    refine ⟨hnd, by simp, ?_⟩
    intro x hx
    obtain ⟨t, ht, hxt⟩ := List.mem_map.mp hx
    have := hlt t ht
    simp only [List.map_cons, List.map_nil, List.mem_singleton]
    omega
  · unfold IdStore.add_table
    intro t ht
    rcases List.mem_append.mp ht with ht | ht
    · have := hlt t ht
      simp only
      omega
    · simp only [List.mem_singleton] at ht
      subst ht
      simp

/-- Store well-formedness is preserved by `update_table`. -/
theorem storeOk_update (s : IdStore) (tid : Nat) (n : Str) (h : storeOk s) :
    storeOk (s.update_table tid n) := by
  obtain ⟨hnd, hlt⟩ := h
  constructor
  · unfold IdStore.update_table
    have hcomp : (s.rows.map (fun t => if t.id == tid then { t with name := n } else t)).map
        (fun t => t.id) = s.rows.map (fun t => t.id) := by
      rw [List.map_map]
      apply List.map_congr_left
      intro t _
      by_cases ht : t.id = tid <;> simp [ht]
    simp only []
    rw [hcomp]
    exact hnd
  · unfold IdStore.update_table
    intro t ht
    obtain ⟨u, hu, hut⟩ := List.mem_map.mp ht
    have := hlt u hu
    subst hut
    by_cases h : u.id = tid <;> simp [h] <;> omega

/-- Store well-formedness is preserved by `delete_table`. -/
theorem storeOk_delete (s : IdStore) (tid : Nat) (h : storeOk s) :
    storeOk (s.delete_table tid) := by
  obtain ⟨hnd, hlt⟩ := h
  constructor
  · exact ((List.filter_sublist s.rows).map (fun t => t.id)).nodup hnd
  · intro t ht
    exact hlt t (List.mem_of_mem_filter ht)

end DictStoreLemmas

section ManagerLemmas

/-- Database fallback of `get_or_create_table`: the id it returns resolves in
the resulting store. -/
theorem getOrCreateDb_resolves (name desc : Str) (st : MState) :
    ((TableManager.getOrCreateDb name desc st).2.store.get_table
      (TableManager.getOrCreateDb name desc st).1).isSome = true := by
  unfold TableManager.getOrCreateDb
  cases hbn : st.store.get_table_by_name name with
  | some t =>
      simp only [hbn]
      obtain ⟨hmem, _⟩ := get_table_by_name_eq_some _ _ _ hbn
      exact get_table_isSome_of_mem _ _ hmem
  | none =>
      simp only [hbn, IdStore.add_table, IdStore.get_table]
      rw [List.find?_isSome]
      exact ⟨⟨st.store.nextId, name, desc⟩, by simp, by simp⟩

/-- Database fallback of `get_or_create_table`: the store is only changed (a
table created) when the name misses in the store. -/
theorem getOrCreateDb_store_change (name desc : Str) (st : MState)
    (h : (TableManager.getOrCreateDb name desc st).2.store ≠ st.store) :
    st.store.get_table_by_name name = none := by
  revert h
  unfold TableManager.getOrCreateDb
  cases hbn : st.store.get_table_by_name name with
  | some t => simp
  | none => intro; rfl

end ManagerLemmas

/-- C5: `get_or_create_table` trusts a cache hit only after a liveness check
(hit with live id returns that id with an untouched state); a dead cached id
leads to the stale entry's removal followed by the store lookup; the store is
changed — a table created — only when the name misses in the store; and the
returned id always resolves to a live table in the resulting store. -/
theorem get_or_create_table_spec (name desc : Str) (st : MState) :
    (((TableManager.get_or_create_table name desc st).2.store.get_table
        (TableManager.get_or_create_table name desc st).1).isSome = true)
    ∧ (∀ tid, dictGet name st.cache = some tid →
        (st.store.get_table tid).isSome = true →
        TableManager.get_or_create_table name desc st = (tid, st))
    ∧ (∀ tid, dictGet name st.cache = some tid →
        st.store.get_table tid = none →
        dictGet name (dictDel name st.cache) = none ∧
        TableManager.get_or_create_table name desc st =
          TableManager.getOrCreateDb name desc
            { st with cache := dictDel name st.cache })
    ∧ ((TableManager.get_or_create_table name desc st).2.store ≠ st.store →
        st.store.get_table_by_name name = none) := by
  refine ⟨?_, ?_, ?_, ?_⟩
  · unfold TableManager.get_or_create_table
    cases hc : dictGet name st.cache with
    | some tid =>
        cases hg : st.store.get_table tid with
        | some t => simp only [hc, hg]; simp [hg]
        | none => simp only [hc, hg]; exact getOrCreateDb_resolves name desc _
    | none => simp only [hc]; exact getOrCreateDb_resolves name desc st
  · intro tid hc hg
    obtain ⟨t, hg'⟩ := Option.isSome_iff_exists.mp hg
    unfold TableManager.get_or_create_table
    simp only [hc, hg']
  · intro tid hc hg
    refine ⟨dictGet_del_self name st.cache, ?_⟩
    unfold TableManager.get_or_create_table
    simp only [hc, hg]
  · unfold TableManager.get_or_create_table
    cases hc : dictGet name st.cache with
    | some tid =>
        cases hg : st.store.get_table tid with
        | some t =>
            simp only [hc, hg]
            intro hne
            exact absurd rfl hne
        | none =>
            simp only [hc, hg]
            intro hne
            exact getOrCreateDb_store_change name desc
              { st with cache := dictDel name st.cache } hne
    | none =>
        simp only [hc]
        intro hne
        exact getOrCreateDb_store_change name desc st hne

/-- C5 witness: a live cache hit at a concrete one-table state returns the
cached id and leaves the state untouched. -/
theorem get_or_create_table_spec_witness :
    TableManager.get_or_create_table "A".toList []
        ⟨[("A".toList, 0)], ⟨[⟨0, "A".toList, []⟩], 1⟩, []⟩ =
      (0, ⟨[("A".toList, 0)], ⟨[⟨0, "A".toList, []⟩], 1⟩, []⟩) :=
  (get_or_create_table_spec "A".toList []
      ⟨[("A".toList, 0)], ⟨[⟨0, "A".toList, []⟩], 1⟩, []⟩).2.1 0
    (by decide) (by decide)

/-- C6: `rename_table` returns `false` without raising when the id does not
resolve (leaving the state untouched); on success it removes the cache entry
keyed by the name read from the store and binds the new name to the same
id. -/
theorem rename_table_spec (tid : Nat) (newName : Str) (raises : Bool)
    (st : MState) :
    (st.store.get_table tid = none →
      TableManager.rename_table tid newName raises st = (false, st))
    ∧ (∀ t, st.store.get_table tid = some t → raises = false →
        (TableManager.rename_table tid newName raises st).1 = true ∧
        dictGet newName
            (TableManager.rename_table tid newName raises st).2.cache
          = some tid ∧
        (t.name ≠ newName →
          dictGet t.name
              (TableManager.rename_table tid newName raises st).2.cache
            = none)) := by
  constructor
  · intro h
    unfold TableManager.rename_table
    rw [h]
  · intro t h hr
    subst hr
    unfold TableManager.rename_table
    rw [h]
    refine ⟨rfl, ?_, ?_⟩
    · simpa using dictGet_set_self newName tid (dictDel t.name st.cache)
    · intro hne
      show dictGet t.name (dictSet newName tid (dictDel t.name st.cache)) = none
      rw [dictGet_set_ne newName t.name tid _ hne]
      exact dictGet_del_self t.name st.cache

/-- C6 witness: renaming the only table of a concrete state succeeds, binds
the new name and unbinds the old one. -/
theorem rename_table_spec_witness :
    (TableManager.rename_table 0 "B".toList false
        ⟨[("A".toList, 0)], ⟨[⟨0, "A".toList, []⟩], 1⟩, []⟩).1 = true ∧
    dictGet "B".toList (TableManager.rename_table 0 "B".toList false
        ⟨[("A".toList, 0)], ⟨[⟨0, "A".toList, []⟩], 1⟩, []⟩).2.cache = some 0 ∧
    dictGet "A".toList (TableManager.rename_table 0 "B".toList false
        ⟨[("A".toList, 0)], ⟨[⟨0, "A".toList, []⟩], 1⟩, []⟩).2.cache = none := by
  have h := (rename_table_spec 0 "B".toList false
      ⟨[("A".toList, 0)], ⟨[⟨0, "A".toList, []⟩], 1⟩, []⟩).2 ⟨0, "A".toList, []⟩
      (by decide) rfl
  exact ⟨h.1, h.2.1, h.2.2 (by decide)⟩

/-- C10: on an id that does not resolve, `delete_table` still issues the
store delete (the ghost trace grows by that id) and returns `true` exactly
when the store delete does not raise. -/
theorem delete_table_unresolved (tid : Nat) (raises : Bool) (st : MState)
    (h : st.store.get_table tid = none) :
    (TableManager.delete_table tid raises st).2.deleteCalls
        = st.deleteCalls ++ [tid] ∧
    ((TableManager.delete_table tid raises st).1 = true ↔ raises = false) := by
  unfold TableManager.delete_table
  rw [h]
  cases raises <;> simp

/-- C10 witness: deleting an unknown id on the empty state issues the delete
and returns `true`. -/
theorem delete_table_unresolved_witness :
    (TableManager.delete_table 3 false ⟨[], ⟨[], 0⟩, []⟩).2.deleteCalls = [3] ∧
    (TableManager.delete_table 3 false ⟨[], ⟨[], 0⟩, []⟩).1 = true :=
  ⟨(delete_table_unresolved 3 false ⟨[], ⟨[], 0⟩, []⟩ (by decide)).1,
   (delete_table_unresolved 3 false ⟨[], ⟨[], 0⟩, []⟩ (by decide)).2.mpr rfl⟩

section InvariantLemmas

/-- With distinct ids, every row resolves to itself by id. -/
theorem find?_id_of_mem_nodup (l : List TableRow)
    (hnd : (l.map (fun t => t.id)).Nodup) (t : TableRow) (h : t ∈ l) :
    l.find? (fun u => u.id == t.id) = some t := by
  induction l with
  | nil => simp at h
  | cons x xs ih =>
    rw [List.map_cons, List.nodup_cons] at hnd
    rcases List.mem_cons.mp h with h | h
    · subst h
      rw [List.find?_cons_of_pos _ (by simp)]
    · have hx : ¬ (x.id == t.id) = true := by
        simp only [beq_iff_eq]
        intro he
        exact hnd.1 (he ▸ List.mem_map_of_mem (fun t => t.id) h)
      rw [@List.find?_cons_of_neg TableRow (fun u => u.id == t.id) x xs hx]
      exact ih hnd.2 h

/-- With distinct ids, a member row is what `get_table` returns for its id. -/
theorem get_table_of_mem_nodup (s : IdStore)
    (hnd : (s.rows.map (fun t => t.id)).Nodup) (t : TableRow) (h : t ∈ s.rows) :
    s.get_table t.id = some t :=
  find?_id_of_mem_nodup s.rows hnd t h

/-- State well-formedness is preserved by the database fallback of
`get_or_create_table`. -/
theorem Inv_getOrCreateDb (name desc : Str) (st : MState) (h : Inv st) :
    Inv (TableManager.getOrCreateDb name desc st).2 := by
  unfold TableManager.getOrCreateDb
  cases hbn : st.store.get_table_by_name name with
  | some t =>
      simp only [hbn]
      obtain ⟨hmem, hname⟩ := get_table_by_name_eq_some _ _ _ hbn
      refine ⟨h.1, keysNodup_dictSet _ _ _ h.2.1, ?_⟩
      intro e he
      rcases (mem_dictSet_iff e name t.id st.cache).mp he with he | ⟨he, _⟩
      · subst he
        exact ⟨t, get_table_of_mem_nodup st.store h.1.1 t hmem, hname⟩
      · exact h.2.2 e he
  | none =>
      simp only [hbn]
      refine ⟨storeOk_add st.store name desc h.1,
        keysNodup_dictSet _ _ _ h.2.1, ?_⟩
      intro e he
      rcases (mem_dictSet_iff e name st.store.nextId st.cache).mp he with he | ⟨he, _⟩
      · subst he
        exact ⟨⟨st.store.nextId, name, desc⟩,
          get_table_add_new st.store name desc h.1.2, rfl⟩
      · obtain ⟨u, hu, hun⟩ := h.2.2 e he
        exact ⟨u, get_table_add_old st.store name desc e.2 u hu, hun⟩

/-- State well-formedness is preserved by `get_or_create_table`. -/
theorem Inv_get_or_create (name desc : Str) (st : MState) (h : Inv st) :
    Inv (TableManager.get_or_create_table name desc st).2 := by
  unfold TableManager.get_or_create_table
  cases hc : dictGet name st.cache with
  | some tid =>
      cases hg : st.store.get_table tid with
      | some t => simp only [hc, hg]; exact h
      | none =>
          simp only [hc, hg]
          exact Inv_getOrCreateDb name desc _
            ⟨h.1, keysNodup_filter _ _ h.2.1,
             fun e he => h.2.2 e ((mem_dictDel_iff e name st.cache).mp he).1⟩
  | none =>
      simp only [hc]
      exact Inv_getOrCreateDb name desc st h

/-- State well-formedness is preserved by `rename_table`. -/
theorem Inv_rename (tid : Nat) (newName : Str) (raises : Bool) (st : MState)
    (h : Inv st) : Inv (TableManager.rename_table tid newName raises st).2 := by
  unfold TableManager.rename_table
  cases hg : st.store.get_table tid with
  | none => simp only [hg]; exact h
  | some t =>
      simp only [hg]
      cases raises with
      | true => simp only [if_pos rfl]; exact h
      | false =>
          simp only [Bool.false_eq_true, if_neg, not_false_iff]
          obtain ⟨hmem, hid⟩ := get_table_eq_some st.store tid t hg
          refine ⟨storeOk_update st.store tid newName h.1,
            keysNodup_dictSet _ _ _ (keysNodup_filter _ _ h.2.1), ?_⟩
          intro e he
          rcases (mem_dictSet_iff e newName tid _).mp he with he | ⟨he, _⟩
          · subst he
            refine ⟨{ t with name := newName }, ?_, rfl⟩
            rw [get_table_update, hg]
            simp [hid]
          · obtain ⟨he2, hne2⟩ := (mem_dictDel_iff e t.name st.cache).mp he
            obtain ⟨u, hu, hun⟩ := h.2.2 e he2
            have hid2 : e.2 ≠ tid := by
              intro hcontra
              rw [hcontra, hg] at hu
              injection hu with huv
              apply hne2
              rw [← hun, huv]
            have huid : u.id = e.2 := (get_table_eq_some _ _ _ hu).2
            refine ⟨u, ?_, hun⟩
            rw [get_table_update, hu]
            simp [huid, hid2]

/-- State well-formedness is preserved by `delete_table`. -/
theorem Inv_delete (tid : Nat) (raises : Bool) (st : MState) (h : Inv st) :
    Inv (TableManager.delete_table tid raises st).2 := by
  unfold TableManager.delete_table
  cases hg : st.store.get_table tid with
  | some t =>
      simp only [hg]
      cases raises with
      | true =>
          simp only [if_pos rfl]
          exact ⟨h.1, keysNodup_filter _ _ h.2.1,
            fun e he => h.2.2 e ((mem_dictDel_iff e t.name st.cache).mp he).1⟩
      | false =>
          simp only [Bool.false_eq_true, if_neg, not_false_iff]
          refine ⟨storeOk_delete st.store tid h.1,
            keysNodup_filter _ _ h.2.1, ?_⟩
          intro e he
          obtain ⟨he2, hne2⟩ := (mem_dictDel_iff e t.name st.cache).mp he
          obtain ⟨u, hu, hun⟩ := h.2.2 e he2
          have hid2 : e.2 ≠ tid := by
            intro hcontra
            rw [hcontra, hg] at hu
            injection hu with huv
            apply hne2
            rw [← hun, huv]
          exact ⟨u, (get_table_delete_ne st.store tid e.2 hid2).symm ▸ hu, hun⟩
  | none =>
      simp only [hg]
      cases raises with
      | true => simp only [if_pos rfl]; exact ⟨h.1, h.2.1, h.2.2⟩
      | false =>
          simp only [Bool.false_eq_true, if_neg, not_false_iff]
          refine ⟨storeOk_delete st.store tid h.1, h.2.1, ?_⟩
          intro e he
          obtain ⟨u, hu, hun⟩ := h.2.2 e he
          have hid2 : e.2 ≠ tid := by
            intro hcontra
            rw [hcontra, hg] at hu
            exact Option.noConfusion hu
          exact ⟨u, (get_table_delete_ne st.store tid e.2 hid2).symm ▸ hu, hun⟩

/-- State well-formedness is preserved by `invalidate_table`. -/
theorem Inv_invalidate (tid : Nat) (st : MState) (h : Inv st) :
    Inv (TableManager.invalidate_table tid st) := by
  exact ⟨h.1, keysNodup_filter _ _ h.2.1,
    fun e he => h.2.2 e (List.mem_of_mem_filter he)⟩

/-- State well-formedness is preserved by `clear_cache`. -/
theorem Inv_clear (st : MState) (h : Inv st) :
    Inv (TableManager.clear_cache st) := by
  refine ⟨h.1, List.nodup_nil, ?_⟩
  intro e he
  simp [TableManager.clear_cache] at he

/-- State well-formedness is preserved by every single manager call. -/
theorem Inv_step (op : MOp) (st : MState) (h : Inv st) : Inv (stepOp op st) := by
  cases op with
  | getOrCreate n d => exact Inv_get_or_create n d st h
  | rename t n r => exact Inv_rename t n r st h
  | delete t r => exact Inv_delete t r st h
  | invalidate t => exact Inv_invalidate t st h
  | clear => exact Inv_clear st h

/-- State well-formedness is preserved by every sequence of manager calls. -/
theorem Inv_run (ops : List MOp) (st : MState) (h : Inv st) :
    Inv (runOps ops st) := by
  induction ops generalizing st with
  | nil => exact h
  | cons op rest ih => exact ih (stepOp op st) (Inv_step op st h)

end InvariantLemmas

/-- C7: after every sequence of `TableManager` operations from a fresh state,
the name→id cache maps distinct names to distinct ids (no two names share an
id) and has distinct keys (no name maps to two ids). -/
theorem cache_no_aliasing (ops : List MOp) :
    keysNodup (runOps ops ⟨[], ⟨[], 0⟩, []⟩).cache ∧
    ((runOps ops ⟨[], ⟨[], 0⟩, []⟩).cache.map Prod.snd).Nodup := by
  have hinv : Inv (runOps ops ⟨[], ⟨[], 0⟩, []⟩) :=
    Inv_run ops _ ⟨⟨List.nodup_nil, fun t ht => absurd ht (List.not_mem_nil t)⟩,
      List.nodup_nil, fun e he => absurd he (List.not_mem_nil e)⟩
  refine ⟨hinv.2.1, ?_⟩
  have hnd : (runOps ops ⟨[], ⟨[], 0⟩, []⟩).cache.Nodup :=
    List.Nodup.of_map Prod.fst hinv.2.1
  refine List.Nodup.map_on ?_ hnd
  intro e1 h1 e2 h2 hsnd
  obtain ⟨t1, ht1, hn1⟩ := hinv.2.2 e1 h1
  obtain ⟨t2, ht2, hn2⟩ := hinv.2.2 e2 h2
  have hsnd' : e1.2 = e2.2 := hsnd
  rw [hsnd', ht2] at ht1
  injection ht1 with ht
  exact keysNodup_eq_of_mem _ hinv.2.1 e1 e2 h1 h2 (by rw [← hn1, ← hn2, ht])

/-- C8: `sanitize_cell_content` is idempotent — sanitizing twice equals
sanitizing once, for every input string. -/
theorem sanitize_cell_content_idem (s : Str) :
    TableValidator.sanitize_cell_content (TableValidator.sanitize_cell_content s) =
      TableValidator.sanitize_cell_content s := by
  have h1 : (TableValidator.sanitize_cell_content s).dropWhile isWS =
      TableValidator.sanitize_cell_content s := by
    apply dropWhile_eq_self_of_head
    intro x hx
    unfold TableValidator.sanitize_cell_content at hx
    rw [List.head?_reverse] at hx
    have hu : (s.dropWhile isWS).reverse.dropWhile isWS ≠ [] := by
      intro h
      rw [h] at hx
      simp at hx
    rw [getLast?_dropWhile isWS (s.dropWhile isWS).reverse hu,
      List.getLast?_reverse] at hx
    exact head?_dropWhile_false isWS s x hx
  show (((TableValidator.sanitize_cell_content s).dropWhile
      isWS).reverse.dropWhile isWS).reverse = TableValidator.sanitize_cell_content s
  rw [h1]
  unfold TableValidator.sanitize_cell_content
  rw [List.reverse_reverse, dropWhile_dropWhile_self]

/-- C4: `update_table` on a table name with no existing cell records returns
a structured not-found outcome (`success = false` with an error message),
performs no cell update and leaves the store unchanged. -/
theorem update_table_not_found (tname : Str) (data : List (List Str))
    (st : ItemStore) (h : get_table_items tname st = []) :
    (TableController.update_table tname data st).1.success = false ∧
      (TableController.update_table tname data st).1.error.isSome = true ∧
      (TableController.update_table tname data st).2.1 = st := by
  unfold TableController.update_table
  simp [h]

/-- C4 witness: the not-found theorem applied at a concrete empty store. -/
theorem update_table_not_found_witness :
    (TableController.update_table "T".toList [["x".toList]] ⟨[], []⟩).1.success = false ∧
      (TableController.update_table "T".toList [["x".toList]] ⟨[], []⟩).1.error.isSome = true ∧
      (TableController.update_table "T".toList [["x".toList]] ⟨[], []⟩).2.1 = ⟨[], []⟩ :=
  update_table_not_found "T".toList [["x".toList]] ⟨[], []⟩ (by decide)

/-- C2 counterexample: when `create_table` fails name validation because the
name already exists, the pre-existing cell records for that name are still
there afterward — the record count is 1, not 0. -/
theorem create_table_validation_records_cex :
    (TableController.create_table [] 7 "Tab".toList [["y".toList]] [] [] []
        ⟨["Tab".toList], [mkCellRecord 5 "Tab".toList [] [] [] 0 0 "x".toList]⟩).1.success
        = false ∧
      (get_table_items "Tab".toList
        (TableController.create_table [] 7 "Tab".toList [["y".toList]] [] [] []
          ⟨["Tab".toList],
           [mkCellRecord 5 "Tab".toList [] [] [] 0 0 "x".toList]⟩).2.1).length = 1 := by
  decide

/-- C2 (amended): when either the name validation or the fill-count
validation of `create_table` fails, the call returns `success = false` with
`items_created = 0`, performs no store insert, and leaves the store — in
particular the set of cell records for that name — exactly as it was. -/
theorem create_table_validation_atomic (reserved : List Str) (catId : Nat)
    (tname : Str) (data : List (List Str)) (colNames : List Str)
    (tags : List Str) (sens : List Nat) (st : ItemStore)
    (h : (TableValidator.validate_table_name reserved tname st.tables none).1 = false ∨
      (TableValidator.validate_table_data data 1).1 = false) :
    (TableController.create_table reserved catId tname data colNames tags sens st).1.success
        = false ∧
      (TableController.create_table reserved catId tname data colNames tags sens
        st).1.items_created = 0 ∧
      (TableController.create_table reserved catId tname data colNames tags sens st).2.1
        = st := by
  unfold TableController.create_table
  rcases h with h | h
  · simp [h]
  · by_cases hn : (TableValidator.validate_table_name reserved tname st.tables none).1
    · simp [hn, h]
    · simp [hn]

/-- C2 witness: the validation-failure theorem applied at an empty name on an
empty store. -/
theorem create_table_validation_atomic_witness :
    (TableController.create_table [] 1 [] [["y".toList]] [] [] [] ⟨[], []⟩).1.success
        = false ∧
      (TableController.create_table [] 1 [] [["y".toList]] [] [] []
        ⟨[], []⟩).1.items_created = 0 ∧
      (TableController.create_table [] 1 [] [["y".toList]] [] [] [] ⟨[], []⟩).2.1
        = ⟨[], []⟩ :=
  create_table_validation_atomic [] 1 [] [["y".toList]] [] [] [] ⟨[], []⟩
    (Or.inl (by decide))

/-- C3 counterexample: a run of `update_table` in which every per-cell update
fails (`updates_count = 0`) yet the `table_updated` notification is emitted,
because the owning category resolves. -/
theorem update_table_signal_zero_success_cex :
    (TableController.update_table "T".toList [["x".toList]]
        ⟨["T".toList], [mkCellRecord 5 "T".toList [] [] [] 1 1 "d".toList]⟩).1.updates_count
        = 0 ∧
      (TableController.update_table "T".toList [["x".toList]]
        ⟨["T".toList], [mkCellRecord 5 "T".toList [] [] [] 1 1 "d".toList]⟩).2.2
        = [Signal.table_updated "T".toList 5] := by
  decide

/-- C3 (amended): on an existing table, `update_table` emits the
`table_updated` notification exactly when the first existing record's
`category_id` is truthy (nonzero), regardless of how many per-cell updates
succeeded. -/
theorem update_table_signals_eq (tname : Str) (data : List (List Str))
    (st : ItemStore) (rec0 : CellRecord)
    (h : (get_table_items tname st).head? = some rec0) :
    (TableController.update_table tname data st).2.2 =
      if rec0.category_id ≠ 0 then [Signal.table_updated tname rec0.category_id]
      else [] := by
  have hne : get_table_items tname st ≠ [] := by
    intro hh
    rw [hh] at h
    simp at h
  unfold TableController.update_table
  simp [hne, h]

/-- C3 witness: the amended notification law applied at a concrete store
whose single record has category 5. -/
theorem update_table_signals_eq_witness :
    (TableController.update_table "T".toList [["x".toList]]
        ⟨["T".toList], [mkCellRecord 5 "T".toList [] [] [] 1 1 "d".toList]⟩).2.2 =
      if (mkCellRecord 5 "T".toList [] [] [] 1 1 "d".toList).category_id ≠ 0
      then [Signal.table_updated "T".toList
        (mkCellRecord 5 "T".toList [] [] [] 1 1 "d".toList).category_id]
      else [] :=
  update_table_signals_eq "T".toList [["x".toList]]
    ⟨["T".toList], [mkCellRecord 5 "T".toList [] [] [] 1 1 "d".toList]⟩
    (mkCellRecord 5 "T".toList [] [] [] 1 1 "d".toList) (by decide)

/-- C9 counterexample: two `Table` entities whose identifiers are both absent
(and whose other fields differ) compare equal under `Table.__eq__`, so
equality does not require both identifiers to be present. -/
theorem tableEq_absent_ids_cex :
    tableEq ⟨none, "A".toList, [], 0, 0⟩ ⟨none, "B".toList, [], 1, 1⟩ = true ∧
      (⟨none, "A".toList, [], 0, 0⟩ : Table).id = none :=
  ⟨rfl, rfl⟩

/-- C9 (amended): `Table` equality holds exactly when the identifier fields
are equal — including the case of two absent identifiers — and depends on no
other field and not on reference identity. -/
theorem tableEq_iff_id_eq (a b : Table) : tableEq a b = true ↔ a.id = b.id := by
  simp [tableEq]

section RoundTripLemmas

/-- Membership in the record list of one encoded row: exactly the non-empty
cells, at their shifted column indices. -/
theorem mem_rowRecords_iff (catId : Nat) (tname : Str) (colNames tags : List Str)
    (sens : List Nat) (r : Nat) (row : List Str) (c0 : Nat) (rec : CellRecord) :
    rec ∈ rowRecords catId tname colNames tags sens r c0 row ↔
      ∃ j, j < row.length ∧ row.getD j [] ≠ [] ∧
        rec = mkCellRecord catId tname colNames tags sens r (c0 + j)
          (row.getD j []) := by
  induction row generalizing c0 with
  | nil => simp [rowRecords]
  | cons cell rest ih =>
    by_cases hc : cell = []
    · subst hc
      rw [rowRecords, if_pos rfl, ih (c0 + 1)]
      constructor
      · rintro ⟨j, hj, hne, hrec⟩
        refine ⟨j + 1, by simpa using hj, by simpa using hne, ?_⟩
        rw [hrec]
        have hixeq : c0 + (j + 1) = c0 + 1 + j := by omega
        rw [hixeq, List.getD_cons_succ]
      · rintro ⟨j, hj, hne, hrec⟩
        cases j with
        | zero => simp at hne
        | succ j =>
          refine ⟨j, by simpa using hj, by simpa using hne, ?_⟩
          rw [hrec]
          have hixeq : c0 + (j + 1) = c0 + 1 + j := by omega
          rw [hixeq, List.getD_cons_succ]
    · rw [rowRecords, if_neg hc]
      constructor
      · intro h
        rcases List.mem_cons.mp h with h | h
        · exact ⟨0, by simp, by simpa using hc, by simpa using h⟩
        · obtain ⟨j, hj, hne, hrec⟩ := (ih (c0 + 1)).mp h
          refine ⟨j + 1, by simpa using hj, by simpa using hne, ?_⟩
          rw [hrec]
          have hixeq : c0 + (j + 1) = c0 + 1 + j := by omega
          rw [hixeq, List.getD_cons_succ]
      · rintro ⟨j, hj, hne, hrec⟩
        cases j with
        | zero => exact List.mem_cons.mpr (Or.inl (by simpa using hrec))
        | succ j =>
          refine List.mem_cons.mpr (Or.inr ((ih (c0 + 1)).mpr ?_))
          refine ⟨j, by simpa using hj, by simpa using hne, ?_⟩
          rw [hrec]
          have hixeq : c0 + (j + 1) = c0 + 1 + j := by omega
          rw [hixeq, List.getD_cons_succ]

/-- Membership in the record list of an encoded matrix: a record of one of
the encoded rows, at its shifted row index. -/
theorem mem_matRecords_iff (catId : Nat) (tname : Str) (colNames tags : List Str)
    (sens : List Nat) (r0 : Nat) (m : List (List Str)) (rec : CellRecord) :
    rec ∈ matRecords catId tname colNames tags sens r0 m ↔
      ∃ i, i < m.length ∧
        rec ∈ rowRecords catId tname colNames tags sens (r0 + i) 0 (m.getD i []) := by
  induction m generalizing r0 with
  | nil => simp [matRecords]
  | cons row rest ih =>
    rw [matRecords, List.mem_append, ih (r0 + 1)]
    constructor
    · rintro (h | ⟨i, hi, h⟩)
      · exact ⟨0, by simp, by simpa using h⟩
      · refine ⟨i + 1, by simpa using hi, ?_⟩
        have hixeq : r0 + (i + 1) = r0 + 1 + i := by omega
        rw [hixeq, List.getD_cons_succ]
        exact h
    · rintro ⟨i, hi, h⟩
      cases i with
      | zero => exact Or.inl (by simpa using h)
      | succ i =>
        refine Or.inr ⟨i, by simpa using hi, ?_⟩
        have hixeq : r0 + (i + 1) = r0 + 1 + i := by omega
        rw [hixeq, List.getD_cons_succ] at h
        exact h

/-- Every record of an encoded matrix carries the encoded table's name. -/
theorem name_matRecords (catId : Nat) (tname : Str) (colNames tags : List Str)
    (sens : List Nat) (r0 : Nat) (m : List (List Str)) (rec : CellRecord)
    (h : rec ∈ matRecords catId tname colNames tags sens r0 m) :
    rec.name_table = tname := by
  obtain ⟨i, _, h⟩ := (mem_matRecords_iff catId tname colNames tags sens r0 m rec).mp h
  obtain ⟨j, _, _, hrec⟩ :=
    (mem_rowRecords_iff catId tname colNames tags sens (r0 + i) (m.getD i []) 0 rec).mp h
  rw [hrec]
  rfl

/-- Row records never match a position below their starting column. -/
theorem find?_rowRecords_none_col (catId : Nat) (tname : Str)
    (colNames tags : List Str) (sens : List Nat) (r : Nat) (row : List Str)
    (c0 : Nat) (r' c' : Nat) (h : c' < c0) :
    (rowRecords catId tname colNames tags sens r c0 row).find?
      (fun rec => rec.row == r' && rec.col == c') = none := by
  rw [List.find?_eq_none]
  intro rec hrec
  obtain ⟨j, _, _, hmk⟩ :=
    (mem_rowRecords_iff catId tname colNames tags sens r row c0 rec).mp hrec
  subst hmk
  simp only [mkCellRecord, Bool.and_eq_true, beq_iff_eq, not_and]
  intro _
  omega

/-- Row records never match a position in a different row. -/
theorem find?_rowRecords_none_row (catId : Nat) (tname : Str)
    (colNames tags : List Str) (sens : List Nat) (r : Nat) (row : List Str)
    (c0 : Nat) (r' c' : Nat) (h : r' ≠ r) :
    (rowRecords catId tname colNames tags sens r c0 row).find?
      (fun rec => rec.row == r' && rec.col == c') = none := by
  rw [List.find?_eq_none]
  intro rec hrec
  obtain ⟨j, _, _, hmk⟩ :=
    (mem_rowRecords_iff catId tname colNames tags sens r row c0 rec).mp hrec
  subst hmk
  simp only [mkCellRecord, Bool.and_eq_true, beq_iff_eq, not_and]
  intro hr
  exact absurd hr.symm h

/-- Matrix records never match a row index below their starting row. -/
theorem find?_matRecords_none_row (catId : Nat) (tname : Str)
    (colNames tags : List Str) (sens : List Nat) (r0 : Nat)
    (m : List (List Str)) (r' c' : Nat) (h : r' < r0) :
    (matRecords catId tname colNames tags sens r0 m).find?
      (fun rec => rec.row == r' && rec.col == c') = none := by
  rw [List.find?_eq_none]
  intro rec hrec
  obtain ⟨i, _, hrow⟩ :=
    (mem_matRecords_iff catId tname colNames tags sens r0 m rec).mp hrec
  obtain ⟨j, _, _, hmk⟩ :=
    (mem_rowRecords_iff catId tname colNames tags sens (r0 + i) (m.getD i []) 0 rec).mp hrow
  subst hmk
  simp only [mkCellRecord, Bool.and_eq_true, beq_iff_eq, not_and]
  intro hr
  omega

/-- First matching record of an encoded row at an in-range column: present
with the cell's content exactly when the cell is non-empty. -/
theorem find?_rowRecords_self (catId : Nat) (tname : Str)
    (colNames tags : List Str) (sens : List Nat) (r : Nat) (row : List Str)
    (c0 j : Nat) (hj : j < row.length) :
    (rowRecords catId tname colNames tags sens r c0 row).find?
      (fun rec => rec.row == r && rec.col == (c0 + j)) =
      if row.getD j [] = [] then none
      else some (mkCellRecord catId tname colNames tags sens r (c0 + j)
        (row.getD j [])) := by
  induction row generalizing c0 j with
  | nil => simp at hj
  | cons cell rest ih =>
    cases j with
    | zero =>
      by_cases hc : cell = []
      · subst hc
        rw [rowRecords, if_pos rfl]
        rw [find?_rowRecords_none_col catId tname colNames tags sens r rest
          (c0 + 1) r (c0 + 0) (by omega)]
        simp
      · rw [rowRecords, if_neg hc, List.find?_cons]
        have hp : ((mkCellRecord catId tname colNames tags sens r c0 cell).row == r &&
            (mkCellRecord catId tname colNames tags sens r c0 cell).col == (c0 + 0)) = true := by
          simp [mkCellRecord]
        rw [hp]
        simp [hc]
    | succ j =>
      have hixeq : c0 + (j + 1) = c0 + 1 + j := by omega
      by_cases hc : cell = []
      · subst hc
        rw [rowRecords, if_pos rfl, hixeq, ih (c0 + 1) j (by simpa using hj)]
        simp
      · rw [rowRecords, if_neg hc, List.find?_cons]
        have hp : ((mkCellRecord catId tname colNames tags sens r c0 cell).row == r &&
            (mkCellRecord catId tname colNames tags sens r c0 cell).col == (c0 + (j + 1))) = false := by
          simp only [mkCellRecord, Bool.and_eq_false_iff, beq_eq_false_iff_ne, ne_eq]
          right
          omega
        rw [hp, hixeq, ih (c0 + 1) j (by simpa using hj)]
        simp

/-- First matching record of an encoded matrix at an in-range position:
present with the cell's content exactly when the cell is non-empty. -/
theorem find?_matRecords_self (catId : Nat) (tname : Str)
    (colNames tags : List Str) (sens : List Nat) (r0 : Nat)
    (m : List (List Str)) (r j : Nat) (hr : r < m.length)
    (hj : j < (m.getD r []).length) :
    (matRecords catId tname colNames tags sens r0 m).find?
      (fun rec => rec.row == (r0 + r) && rec.col == j) =
      if (m.getD r []).getD j [] = [] then none
      else some (mkCellRecord catId tname colNames tags sens (r0 + r) j
        ((m.getD r []).getD j [])) := by
  induction m generalizing r0 r with
  | nil => simp at hr
  | cons row rest ih =>
    cases r with
    | zero =>
      rw [matRecords, List.find?_append]
      rw [find?_matRecords_none_row catId tname colNames tags sens (r0 + 1)
        rest (r0 + 0) j (by omega)]
      rw [Option.or_none]
      have hrow := find?_rowRecords_self catId tname colNames tags sens r0 row 0 j
        (by simpa using hj)
      simp only [Nat.zero_add] at hrow
      have hzero : r0 + 0 = r0 := by omega
      rw [hzero] at *
      simpa using hrow
    | succ r =>
      rw [matRecords, List.find?_append]
      rw [find?_rowRecords_none_row catId tname colNames tags sens r0 row 0
        (r0 + (r + 1)) j (by omega)]
      rw [Option.none_or]
      have hixeq : r0 + (r + 1) = r0 + 1 + r := by omega
      rw [hixeq, ih (r0 + 1) r (by simpa using hr) (by
        rw [List.getD_cons_succ] at hj
        exact hj)]
      simp

/-- Upper bound of a fold of `max` over a list of naturals. -/
theorem foldr_max_le (l : List Nat) (b : Nat) (h : ∀ x ∈ l, x ≤ b) :
    l.foldr max 0 ≤ b := by
  induction l with
  | nil => simp
  | cons a as ih =>
    simp only [List.foldr_cons]
    exact max_le (h a (by simp)) (ih fun x hx => h x (List.mem_cons_of_mem a hx))

/-- Members bound the fold of `max` from below. -/
theorem le_foldr_max (l : List Nat) (x : Nat) (h : x ∈ l) :
    x ≤ l.foldr max 0 := by
  induction l with
  | nil => simp at h
  | cons a as ih =>
    simp only [List.foldr_cons]
    rcases List.mem_cons.mp h with h | h
    · exact h ▸ Nat.le_max_left _ _
    · exact le_trans (ih h) (Nat.le_max_right _ _)

/-- Index lists whose members are exactly `0..M-1` sort to `range M`. -/
theorem sortedIndices_eq_range (l : List Nat) (M : Nat) (hM : 0 < M)
    (h : ∀ x, x ∈ l ↔ x < M) : sortedIndices l = List.range M := by
  have hub : ∀ x ∈ l, x ≤ M - 1 := fun x hx => by
    have := (h x).mp hx
    omega
  have hmem : M - 1 ∈ l := (h (M - 1)).mpr (by omega)
  have hmax : l.foldr max 0 = M - 1 :=
    Nat.le_antisymm (foldr_max_le l (M - 1) hub) (le_foldr_max l (M - 1) hmem)
  unfold sortedIndices
  rw [hmax]
  have hM1 : M - 1 + 1 = M := by omega
  rw [hM1]
  apply List.filter_eq_self.mpr
  intro a ha
  simpa using (h a).mpr (List.mem_range.mp ha)

/-- Row indices occurring among an encoded matrix's records: rows with at
least one non-empty cell. -/
theorem mem_map_row_matRecords (catId : Nat) (tname : Str)
    (colNames tags : List Str) (sens : List Nat) (m : List (List Str)) (x : Nat) :
    x ∈ (matRecords catId tname colNames tags sens 0 m).map (fun rec => rec.row) ↔
      x < m.length ∧ ∃ j, j < (m.getD x []).length ∧ (m.getD x []).getD j [] ≠ [] := by
  rw [List.mem_map]
  constructor
  · rintro ⟨rec, hrec, hx⟩
    obtain ⟨i, hi, hrow⟩ :=
      (mem_matRecords_iff catId tname colNames tags sens 0 m rec).mp hrec
    obtain ⟨j, hj, hne, hmk⟩ :=
      (mem_rowRecords_iff catId tname colNames tags sens (0 + i) (m.getD i []) 0 rec).mp hrow
    subst hmk
    have hxi : i = x := by simpa [mkCellRecord] using hx
    subst hxi
    exact ⟨hi, j, hj, hne⟩
  · rintro ⟨hx, j, hj, hne⟩
    refine ⟨mkCellRecord catId tname colNames tags sens (0 + x) (0 + j)
      ((m.getD x []).getD j []), ?_, by simp [mkCellRecord]⟩
    exact (mem_matRecords_iff catId tname colNames tags sens 0 m _).mpr
      ⟨x, hx, (mem_rowRecords_iff catId tname colNames tags sens (0 + x)
        (m.getD x []) 0 _).mpr ⟨j, hj, hne, rfl⟩⟩

/-- Column indices occurring among an encoded matrix's records: columns with
at least one non-empty cell. -/
theorem mem_map_col_matRecords (catId : Nat) (tname : Str)
    (colNames tags : List Str) (sens : List Nat) (m : List (List Str)) (x : Nat) :
    x ∈ (matRecords catId tname colNames tags sens 0 m).map
        (fun rec => rec.orden_lista) ↔
      ∃ i, i < m.length ∧ x < (m.getD i []).length ∧ (m.getD i []).getD x [] ≠ [] := by
  rw [List.mem_map]
  constructor
  · rintro ⟨rec, hrec, hx⟩
    obtain ⟨i, hi, hrow⟩ :=
      (mem_matRecords_iff catId tname colNames tags sens 0 m rec).mp hrec
    obtain ⟨j, hj, hne, hmk⟩ :=
      (mem_rowRecords_iff catId tname colNames tags sens (0 + i) (m.getD i []) 0 rec).mp hrow
    subst hmk
    have hxj : j = x := by simpa [mkCellRecord] using hx
    subst hxj
    exact ⟨i, hi, hj, hne⟩
  · rintro ⟨i, hi, hx, hne⟩
    refine ⟨mkCellRecord catId tname colNames tags sens (0 + i) (0 + x)
      ((m.getD i []).getD x []), ?_, by simp [mkCellRecord]⟩
    exact (mem_matRecords_iff catId tname colNames tags sens 0 m _).mpr
      ⟨i, hi, (mem_rowRecords_iff catId tname colNames tags sens (0 + i)
        (m.getD i []) 0 _).mpr ⟨x, hx, hne, rfl⟩⟩

/-- Element access through row sanitization. -/
theorem sanitize_row_getD (row : List Str) (c : Nat) :
    (row.map TableValidator.sanitize_cell_content).getD c [] =
      TableValidator.sanitize_cell_content (row.getD c []) := by
  induction row generalizing c with
  | nil => rfl
  | cons cell rest ih =>
    cases c with
    | zero => simp
    | succ c =>
      simp only [List.map_cons, List.getD_cons_succ]
      exact ih c

/-- Row access through matrix sanitization. -/
theorem sanitize_table_getD (m : List (List Str)) (r : Nat) :
    (TableValidator.sanitize_table_data m).getD r [] =
      (m.getD r []).map TableValidator.sanitize_cell_content := by
  induction m generalizing r with
  | nil => rfl
  | cons row rest ih =>
    cases r with
    | zero => simp [TableValidator.sanitize_table_data]
    | succ r =>
      simp only [TableValidator.sanitize_table_data, List.map_cons,
        List.getD_cons_succ]
      exact ih r

/-- Cell access through matrix sanitization. -/
theorem sanitize_getD (m : List (List Str)) (r c : Nat) :
    ((TableValidator.sanitize_table_data m).getD r []).getD c [] =
      TableValidator.sanitize_cell_content ((m.getD r []).getD c []) := by
  rw [sanitize_table_getD, sanitize_row_getD]

/-- One cell whose sanitized content is non-empty makes the filled count
positive. -/
theorem filledCount_pos (m : List (List Str)) (r c : Nat) (hr : r < m.length)
    (hc : c < (m.getD r []).length)
    (hne : TableValidator.sanitize_cell_content ((m.getD r []).getD c []) ≠ []) :
    0 < TableValidator.filledCount m := by
  unfold TableValidator.filledCount
  have hrowel : m.getD r [] ∈ m := by
    rw [List.getD_eq_getElem m [] hr]
    exact List.getElem_mem hr
  have hcellmem : (m.getD r []).getD c [] ∈ m.getD r [] := by
    rw [List.getD_eq_getElem (m.getD r []) [] hc]
    exact List.getElem_mem hc
  have hfil : (m.getD r []).getD c [] ∈
      (m.getD r []).filter
        (fun cell => TableValidator.sanitize_cell_content cell ≠ []) :=
    List.mem_filter.mpr ⟨hcellmem, by simpa using hne⟩
  have hlen : 0 <
      ((m.getD r []).filter
        (fun cell => TableValidator.sanitize_cell_content cell ≠ [])).length :=
    List.length_pos.mpr (List.ne_nil_of_mem hfil)
  refine lt_of_lt_of_le hlen
    (List.single_le_sum (fun x _ => Nat.zero_le x) _ ?_)
  exact List.mem_map_of_mem
    (fun row => (row.filter
      (fun cell => TableValidator.sanitize_cell_content cell ≠ [])).length) hrowel

/-- Data validation succeeds on a positive filled count. -/
theorem validate_table_data_pos (m : List (List Str))
    (h : 0 < TableValidator.filledCount m) :
    TableValidator.validate_table_data m 1 =
      (true, [], TableValidator.filledCount m) := by
  unfold TableValidator.validate_table_data
  rw [if_neg (by omega)]

/-- Reading a rectangular grid back index-by-index reproduces it. -/
theorem grid_ext (S : List (List Str)) (N : Nat)
    (hrect : ∀ r, r < S.length → (S.getD r []).length = N) :
    (List.range S.length).map
      (fun r => (List.range N).map (fun c => (S.getD r []).getD c [])) = S := by
  apply List.ext_getElem
  · simp
  · intro r h1 h2
    simp only [List.getElem_map, List.getElem_range]
    have hgr : S.getD r [] = S[r] := List.getD_eq_getElem S [] h2
    apply List.ext_getElem
    · have := hrect r h2
      rw [hgr] at this
      simpa using this.symm
    · intro c hc1 hc2
      simp only [List.getElem_map, List.getElem_range]
      rw [hgr]
      exact List.getD_eq_getElem S[r] [] hc2

/-- Cell content reconstructed from an encoded matrix at an in-range
position. -/
theorem contentAt_matRecords (catId : Nat) (tname : Str)
    (colNames tags : List Str) (sens : List Nat) (S : List (List Str))
    (r c : Nat) (hr : r < S.length) (hc : c < (S.getD r []).length) :
    contentAt (matRecords catId tname colNames tags sens 0 S) r c =
      (S.getD r []).getD c [] := by
  unfold contentAt
  have hf := find?_matRecords_self catId tname colNames tags sens 0 S r c hr hc
  simp only [Nat.zero_add] at hf
  rw [hf]
  by_cases hcell : (S.getD r []).getD c [] = []
  · rw [if_pos hcell]
    exact hcell.symm
  · rw [if_neg hcell]
    rfl

end RoundTripLemmas

/-- C1 counterexample: a valid matrix with one non-empty cell whose second
row is entirely empty round-trips to a one-row matrix, not to the sanitized
input: empty cells produce no record, so the all-empty row is lost. -/
theorem create_roundtrip_cex :
    (TableController.create_table [] 1 "Tab".toList [["a".toList], [[]]]
        ["C".toList] [] [] ⟨[], []⟩).1.success = true ∧
      (TableController.get_table_structure "Tab".toList
        (TableController.create_table [] 1 "Tab".toList [["a".toList], [[]]]
          ["C".toList] [] [] ⟨[], []⟩).2.1).rows
        ≠ TableValidator.sanitize_table_data [["a".toList], [[]]] := by
  decide

/-- C1 (amended): for a rectangular matrix in which every row and every
column contains at least one cell that is non-empty after sanitization, with
a name passing validation and no pre-existing records under that name,
`create_table` followed by `get_table_structure` reconstructs exactly the
element-wise sanitized input matrix. -/
theorem create_get_structure_roundtrip (reserved : List Str) (catId : Nat)
    (tname : Str) (m : List (List Str)) (colNames tags : List Str)
    (sens : List Nat) (st : ItemStore) (N : Nat)
    (hv : (TableValidator.validate_table_name reserved tname st.tables none).1 = true)
    (hclean : get_table_items tname st = [])
    (hM : 0 < m.length) (hN : 0 < N)
    (hrect : ∀ row ∈ m, row.length = N)
    (hrow : ∀ r, r < m.length → ∃ c, c < N ∧
      TableValidator.sanitize_cell_content ((m.getD r []).getD c []) ≠ [])
    (hcol : ∀ c, c < N → ∃ r, r < m.length ∧
      TableValidator.sanitize_cell_content ((m.getD r []).getD c []) ≠ []) :
    (TableController.create_table reserved catId tname m colNames tags sens
      st).1.success = true ∧
    (TableController.get_table_structure tname
      (TableController.create_table reserved catId tname m colNames tags sens
        st).2.1).success = true ∧
    (TableController.get_table_structure tname
      (TableController.create_table reserved catId tname m colNames tags sens
        st).2.1).rows = TableValidator.sanitize_table_data m := by
  set S := TableValidator.sanitize_table_data m with hS
  set recs := matRecords catId tname colNames tags sens 0 S with hrecs
  have hSlen : S.length = m.length := by
    rw [hS]
    simp [TableValidator.sanitize_table_data]
  have hmemD : ∀ r, r < m.length → m.getD r [] ∈ m := fun r hr => by
    rw [List.getD_eq_getElem m [] hr]
    exact List.getElem_mem hr
  have hSrect : ∀ r, r < m.length → (S.getD r []).length = N := fun r hr => by
    rw [hS, sanitize_table_getD]
    simpa using hrect (m.getD r []) (hmemD r hr)
  have hfill : 0 < TableValidator.filledCount m := by
    obtain ⟨c, hcN, hcne⟩ := hrow 0 hM
    refine filledCount_pos m 0 c hM ?_ hcne
    rw [hrect (m.getD 0 []) (hmemD 0 hM)]
    exact hcN
  have hdata := validate_table_data_pos m hfill
  have hcreate : TableController.create_table reserved catId tname m colNames
      tags sens st =
      ({ success := true, items_created := recs.length, table_name := tname,
         errors := [], filled_cells := TableValidator.filledCount m },
       { tables := st.tables ++ [tname], records := st.records ++ recs },
       [Signal.table_created tname recs.length catId]) := by
    unfold TableController.create_table add_table_items
    simp [hv, hdata, ← hS, ← hrecs]
  have hitems : get_table_items tname
      ({ tables := st.tables ++ [tname], records := st.records ++ recs } :
        ItemStore) = recs := by
    unfold get_table_items
    show (st.records ++ recs).filter _ = recs
    rw [List.filter_append]
    have hcl : st.records.filter (fun rec => rec.name_table == tname) = [] := hclean
    rw [hcl, List.filter_eq_self.mpr ?_, List.nil_append]
    intro rec hrec
    have := name_matRecords catId tname colNames tags sens 0 S rec (hrecs ▸ hrec)
    simpa using this
  have hrowidx : sortedIndices (recs.map (fun rec => rec.row)) =
      List.range m.length := by
    apply sortedIndices_eq_range _ _ hM
    intro x
    rw [hrecs, mem_map_row_matRecords]
    constructor
    · rintro ⟨hx, -⟩
      omega
    · intro hx
      obtain ⟨c, hcN, hcne⟩ := hrow x hx
      refine ⟨by omega, c, ?_, ?_⟩
      · rw [hSrect x hx]
        exact hcN
      · rw [hS, sanitize_getD]
        exact hcne
  have hcolidx : sortedIndices (recs.map (fun rec => rec.orden_lista)) =
      List.range N := by
    apply sortedIndices_eq_range _ _ hN
    intro x
    rw [hrecs, mem_map_col_matRecords]
    constructor
    · rintro ⟨i, hi, hx, -⟩
      have hi2 : i < m.length := by omega
      have := hSrect i hi2
      omega
    · intro hx
      obtain ⟨r, hr, hrne⟩ := hcol x hx
      refine ⟨r, by omega, ?_, ?_⟩
      · rw [hSrect r hr]
        exact hx
      · rw [hS, sanitize_getD]
        exact hrne
  have hrecsne : recs ≠ [] := by
    obtain ⟨c, hcN, hcne⟩ := hrow 0 hM
    have h0 : (0 : Nat) ∈ recs.map (fun rec => rec.row) := by
      rw [hrecs, mem_map_row_matRecords]
      refine ⟨by omega, c, ?_, ?_⟩
      · rw [hSrect 0 hM]
        exact hcN
      · rw [hS, sanitize_getD]
        exact hcne
    intro hnil
    rw [hnil] at h0
    simp at h0
  have hR : (List.range m.length).map
      (fun r => (List.range N).map (fun c => contentAt recs r c)) = S := by
    have hgrid := grid_ext S N (fun r hr => hSrect r (by omega))
    rw [hSlen] at hgrid
    rw [← hgrid]
    apply List.map_congr_left
    intro r hr
    apply List.map_congr_left
    intro c hc
    rw [hrecs]
    refine contentAt_matRecords catId tname colNames tags sens S r c ?_ ?_
    · rw [hSlen]
      exact List.mem_range.mp hr
    · rw [hSrect r (List.mem_range.mp hr)]
      exact List.mem_range.mp hc
  have hexport : export_table_to_dict tname
      ({ tables := st.tables ++ [tname], records := st.records ++ recs } :
        ItemStore) = some
      { table_name := tname,
        columns := (List.range N).map (labelAt recs),
        rows := S,
        num_rows := (List.range m.length).length,
        num_cols := (List.range N).length } := by
    unfold export_table_to_dict
    simp only [hitems, if_neg hrecsne, hrowidx, hcolidx, hR]
  have hSne : S ≠ [] := by
    intro h
    rw [h] at hSlen
    simp at hSlen
    omega
  refine ⟨by rw [hcreate], ?_, ?_⟩
  · rw [hcreate]
    unfold TableController.get_table_structure
    rw [hexport]
    simp [hSne]
  · rw [hcreate]
    unfold TableController.get_table_structure
    rw [hexport]
    simp [hSne]

/-- C1 witness: the amended round-trip law applied to a concrete 2×2 matrix
with one whitespace-padded cell and one empty cell. -/
theorem create_get_structure_roundtrip_witness :
    (TableController.create_table [] 1 "Tab".toList
      [[" a ".toList, "b".toList], ["c".toList, []]] ["C1".toList, "C2".toList]
      [] [] ⟨[], []⟩).1.success = true ∧
    (TableController.get_table_structure "Tab".toList
      (TableController.create_table [] 1 "Tab".toList
        [[" a ".toList, "b".toList], ["c".toList, []]] ["C1".toList, "C2".toList]
        [] [] ⟨[], []⟩).2.1).success = true ∧
    (TableController.get_table_structure "Tab".toList
      (TableController.create_table [] 1 "Tab".toList
        [[" a ".toList, "b".toList], ["c".toList, []]] ["C1".toList, "C2".toList]
        [] [] ⟨[], []⟩).2.1).rows =
      TableValidator.sanitize_table_data
        [[" a ".toList, "b".toList], ["c".toList, []]] :=
  create_get_structure_roundtrip [] 1 "Tab".toList
    [[" a ".toList, "b".toList], ["c".toList, []]] ["C1".toList, "C2".toList]
    [] [] ⟨[], []⟩ 2 (by decide) (by decide) (by decide) (by decide)
    (by decide) (by decide) (by decide)

end WidgSid
